import Mathlib

/-!
Verification of the `code-input` CODEOWNERS tooling core.

Strings from the Rust sources are embedded as `List Char`; the `f64` scores of
the inference engine are embedded as exact rationals (`ℚ`); fallible Rust code
returning `Result` is embedded as `Except Unit` (error payloads are messages
only and carry no information used by any claim); interactions with the file
system, git, and the external glob-matcher crate are abstracted as explicit
environment records whose fields record the outcome of each external call.
-/

namespace CodeInput

abbrev Str := List Char

/-- `s.starts_with(c)` on a Rust string slice. -/
def startsWithChar (c : Char) (s : Str) : Bool :=
  s.head? = some c

/-- `str::trim`: remove leading and trailing whitespace. -/
def trim (s : Str) : Str :=
  ((s.dropWhile Char.isWhitespace).reverse.dropWhile Char.isWhitespace).reverse

/-- Accumulator-style worker for `split_whitespace`; `acc` holds the current
token reversed. -/
def splitWSAux : Str → Str → List Str
  | acc, [] => if acc.isEmpty then [] else [acc.reverse]
  | acc, c :: rest =>
    if c.isWhitespace then
      if acc.isEmpty then splitWSAux [] rest else acc.reverse :: splitWSAux [] rest
    else splitWSAux (c :: acc) rest

/-- `str::split_whitespace`: tokens separated by whitespace runs, no empty
tokens. -/
def splitWhitespace (s : Str) : List Str :=
  splitWSAux [] s

/-- `str::split(sep)` as a list of fields (always at least one field). -/
def splitOn (sep : Char) : Str → List Str
  | [] => [[]]
  | c :: rest =>
    if c = sep then [] :: splitOn sep rest
    else
      match splitOn sep rest with
      | [] => [[c]]
      | t :: ts => (c :: t) :: ts

/-- ASCII lower-casing of one character, as used by `eq_ignore_ascii_case`. -/
def asciiLower (c : Char) : Char :=
  if 'A' ≤ c ∧ c ≤ 'Z' then Char.ofNat (c.toNat + 32) else c

/-- `str::eq_ignore_ascii_case`. -/
def eqIgnoreAsciiCase (a b : Str) : Bool :=
  a.map asciiLower = b.map asciiLower

/-- Classification of owner types (`core/types.rs`, `OwnerType`). -/
inductive OwnerType
  | User
  | Team
  | Email
  | Unowned
  | Unknown
deriving DecidableEq, Repr

/-- An owner of code files (`core/types.rs`, `Owner`). -/
structure Owner where
  identifier : Str
  owner_type : OwnerType
deriving DecidableEq, Repr

/-- A metadata tag (`core/types.rs`, `Tag`). -/
structure Tag where
  name : Str
deriving DecidableEq, Repr

/-- A parsed CODEOWNERS entry (`core/types.rs`, `CodeownersEntry`). -/
structure CodeownersEntry where
  source_file : Str
  line_number : Nat
  pattern : Str
  owners : List Owner
  tags : List Tag
deriving DecidableEq, Repr

/-- An inline CODEOWNERS declaration (`core/types.rs`,
`InlineCodeownersEntry`). -/
structure InlineCodeownersEntry where
  file_path : Str
  line_number : Nat
  owners : List Owner
  tags : List Tag
deriving DecidableEq, Repr

/-- `str::strip_prefix(c)`: `some` of the remainder when the string starts
with `c`, else `none`. -/
def stripPrefixChar (c : Char) : Str → Option Str
  | [] => none
  | a :: rest => if a = c then some rest else none

/-- The literal `"NOOWNER"` compared case-insensitively by `parse_owner`. -/
def NOOWNER_CHARS : Str := "NOOWNER".toList

/-- `parse_owner` from `core/parser.rs`.  In the source it returns
`Result<Owner>` but no branch constructs an error, so it is embedded as the
total function it is. -/
def parse_owner (owner_str : Str) : Owner :=
  let owner_type :=
    if eqIgnoreAsciiCase owner_str NOOWNER_CHARS then OwnerType.Unowned
    else
      match stripPrefixChar '@' owner_str with
      | some stripped =>
        if (splitOn '/' stripped).length = 2 then OwnerType.Team else OwnerType.User
      | none =>
        if owner_str.contains '@' then OwnerType.Email else OwnerType.Unknown
  { identifier := owner_str, owner_type := owner_type }

/-- The `next_is_non_tag` lookahead of `parse_line` (`core/parser.rs` line
56): there is a next token and it does not start with `'#'`. -/
def nextIsNonTag (rest : List Str) : Bool :=
  match rest with
  | next :: _ => !(startsWithChar '#' next)
  | [] => false

/-- The tag-collection loop of `parse_line` (`core/parser.rs` lines 48-67):
one recursion step per loop iteration, `[]` for `break`. -/
def collectTags : List Str → List Tag
  | [] => []
  | t :: rest =>
    match stripPrefixChar '#' t with
    | some tagName =>
      if tagName.isEmpty then []
      else if nextIsNonTag rest then [] else ⟨tagName⟩ :: collectTags rest
    | none => []

/-- `parse_line` from `core/parser.rs`.  The owners loop (lines 42-45) consumes
tokens after the pattern while they do not start with `'#'`; the remaining
tokens go through the tag loop.  The source returns `Result<Option<_>>` and is
never `Err` (its only fallible call, `parse_owner`, never fails), so it is
embedded with the `Option` alone. -/
def parse_line (line : Str) (line_num : Nat) (source_path : Str) :
    Option CodeownersEntry :=
  let trimmed := trim line
  if trimmed.isEmpty || startsWithChar '#' trimmed then none
  else
    match splitWhitespace trimmed with
    | [] => none
    | pattern :: rest =>
      some { source_file := source_path
             line_number := line_num
             pattern := pattern
             owners := (rest.takeWhile fun t => !(startsWithChar '#' t)).map parse_owner
             tags := collectTags (rest.dropWhile fun t => !(startsWithChar '#' t)) }

/-- The `lines().enumerate().filter_map(parse_line ...)` pipeline of
`parse_codeowners` (`core/parser.rs` lines 7-15), with the running 0-based
line index made explicit. -/
def parse_codeowners_from (source_path : Str) : Nat → List Str → List CodeownersEntry
  | _, [] => []
  | n, l :: rest =>
    match parse_line l n source_path with
    | some e => e :: parse_codeowners_from source_path (n + 1) rest
    | none => parse_codeowners_from source_path (n + 1) rest

/-- `parse_codeowners` from `core/parser.rs`, on the file's list of lines
(the `std::fs::read_to_string` + `lines()` part of the source is the file
system access; the claim-relevant enumeration starts at index 0). -/
def parse_codeowners (content : List Str) (source_path : Str) : List CodeownersEntry :=
  parse_codeowners_from source_path 0 content

/-! ## Inline marker scanner (`core/inline_parser.rs`) -/

/-- The fixed inline marker string. -/
def MARKER : Str := "!!!CODEOWNERS".toList

/-- `line.find(pat)` followed by slicing off everything up to and including the
first occurrence: `some` of the remainder after the first occurrence of `pat`,
`none` when `pat` does not occur. -/
def findSubAfter (pat : Str) : Str → Option Str
  | [] => if pat.isEmpty then some [] else none
  | c :: rest =>
    if pat.isPrefixOf (c :: rest) then some ((c :: rest).drop pat.length)
    else findSubAfter pat rest

/-- The character test of `core/inline_parser.rs` line 102:
`c.is_alphanumeric() || c == '-' || c == '_'`. -/
def isTagNameChar (c : Char) : Bool :=
  c.isAlphanum || c = '-' || c = '_'

/-- The tag-collection loop of `parse_inline_codeowners_line`
(`core/inline_parser.rs` lines 60-125): one recursion step per iteration,
`[]` or a final singleton for the `break` paths.  The source's two redundant
empty-tag checks (`token == "#"` and `tag_part.is_empty()`) collapse into
one. -/
def collectInlineTags : List Str → List Tag
  | [] => []
  | t :: rest =>
    match stripPrefixChar '#' t with
    | some tag_part =>
      if tag_part.isEmpty then []
      else
        match rest with
        | [] => [⟨tag_part⟩]
        | next :: rest2 =>
          if next = "-->".toList ∨ next = "*/".toList then [⟨tag_part⟩]
          else if startsWithChar '#' next then ⟨tag_part⟩ :: collectInlineTags (next :: rest2)
          else if tag_part.all isTagNameChar then [⟨tag_part⟩]
          else []
    | none => []

/-- `parse_inline_codeowners_line` from `core/inline_parser.rs` lines 34-139:
locate the first marker occurrence, tokenize the remainder, consume owners
until a `'#'`-token, collect tags, and emit an entry only when at least one
owner was found.  As in the source, a `Result` that is never `Err` is embedded
as the plain `Option`. -/
def parse_inline_codeowners_line (line : Str) (line_number : Nat) (file_path : Str) :
    Option InlineCodeownersEntry :=
  match findSubAfter MARKER line with
  | none => none
  | some after_marker =>
    match splitWhitespace after_marker with
    | [] => none
    | tok :: toks =>
      let tokens := tok :: toks
      let owners := (tokens.takeWhile fun t => !(startsWithChar '#' t)).map parse_owner
      let tags := collectInlineTags (tokens.dropWhile fun t => !(startsWithChar '#' t))
      if owners.isEmpty then none
      else some { file_path := file_path, line_number := line_number
                  owners := owners, tags := tags }

/-- The scanning loop of `detect_inline_codeowners` (`core/inline_parser.rs`
lines 19-28): `line_num` is the 0-based enumeration index, the parser is
called with `line_num + 1`, and the first line yielding an entry wins. -/
def scanInlineLines (file_path : Str) : Nat → List Str → Option InlineCodeownersEntry
  | _, [] => none
  | line_num, l :: rest =>
    match parse_inline_codeowners_line l (line_num + 1) file_path with
    | some e => some e
    | none => scanInlineLines file_path (line_num + 1) rest

/-- `detect_inline_codeowners` from `core/inline_parser.rs` lines 10-31.  The
file system is abstracted: `file = none` models a file that does not exist or
cannot be opened (the source returns `Ok(None)` there), `some lines` gives the
file's lines.  Only the first 50 lines are inspected (`take(50)`). -/
def detect_inline_codeowners (file_path : Str) (file : Option (List Str)) :
    Option InlineCodeownersEntry :=
  match file with
  | none => none
  | some lines => scanInlineLines file_path 0 (lines.take 50)

/-- `s.ends_with(t)`. -/
def endsWith (s t : Str) : Bool :=
  t.reverse.isPrefixOf s.reverse

/-- `normalize_codeowners_pattern` from `core/types.rs` lines 14-21. -/
def normalize_codeowners_pattern (pattern : Str) : Str :=
  if endsWith pattern ['/'] && !endsWith pattern ['*', '/']
      && !endsWith pattern ['*', '*', '/'] then
    pattern ++ ['*', '*']
  else
    pattern

/-! ## Cache engine (`core/cache.rs`, `core/types.rs`) -/

/-- A 32-byte fingerprint (`[u8; 32]`); only equality is ever used. -/
abbrev Hash := List Nat

/-- A file with its resolved ownership (`core/types.rs`, `FileEntry`). -/
structure FileEntry where
  path : Str
  owners : List Owner
  tags : List Tag
deriving DecidableEq, Repr

/-- Modelled from the spec: the cache format version constant `CACHE_VERSION`
(imported by `core/cache.rs` from `core/types.rs`; the provided copy of
`types.rs` predates the version field, and §3 gives `OwnershipCache` a
`version: integer`).  Its concrete value is immaterial: every use only
compares a stored version against it for equality. -/
def CACHE_VERSION : Nat := 1

/-- The cache record (`core/types.rs` `CodeownersCache` plus the `version`
field that `core/cache.rs` reads and writes).  The two `HashMap`s are
embedded as key-unique association lists in insertion order; only
key-lookup contents matter to the claims, not iteration order. -/
structure CodeownersCache where
  version : Nat
  hash : Hash
  entries : List CodeownersEntry
  files : List FileEntry
  owners_map : List (Owner × List Str)
  tags_map : List (Tag × List Str)
deriving DecidableEq, Repr

/-- `map.entry(k).or_insert_with(Vec::new).push(v)` on an association list:
append `v` to the entry for `k`, creating it if absent. -/
def mapInsertAppend {κ π : Type} [DecidableEq κ] (m : List (κ × List π)) (k : κ) (v : π) :
    List (κ × List π) :=
  if m.any (fun kv => kv.1 = k) then
    m.map (fun kv => if kv.1 = k then (kv.1, kv.2 ++ [v]) else kv)
  else
    m ++ [(k, [v])]

/-- Lookup in an association map (the `HashMap` read-out): the value of the
first entry whose key matches, a missing key reading as the empty list. -/
def mapFind {κ π : Type} [DecidableEq κ] : List (κ × List π) → κ → List π
  | [], _ => []
  | kv :: m, k => if kv.1 = k then kv.2 else mapFind m k

/-- One `file_entry` step of the index-building loop of `build_cache`
(`core/cache.rs` lines 108-121), owners half. -/
def addFileOwners (m : List (Owner × List Str)) (fe : FileEntry) : List (Owner × List Str) :=
  fe.owners.foldl (fun m o => mapInsertAppend m o fe.path) m

/-- One `file_entry` step of the index-building loop of `build_cache`, tags
half. -/
def addFileTags (m : List (Tag × List Str)) (fe : FileEntry) : List (Tag × List Str) :=
  fe.tags.foldl (fun m t => mapInsertAppend m t fe.path) m

/-- `build_cache` from `core/cache.rs` lines 20-131.  The per-file resolution
(`find_owners_and_tags_for_file` against the compiled matchers, with its
error fallback to empty ownership) lives in `core/resolver.rs` and the
external `ignore` crate, outside the provided sources; it is abstracted as an
explicit `resolve` function, since every claim about `build_cache` holds for
any resolution outcome.  Progress printing and the atomic counter carry no
data and are omitted. -/
def build_cache (resolve : Str → List Owner × List Tag)
    (entries : List CodeownersEntry) (files : List Str) (hash : Hash) :
    CodeownersCache :=
  let file_entries := files.map fun p =>
    let r := resolve p
    FileEntry.mk p r.1 r.2
  { version := CACHE_VERSION
    hash := hash
    entries := entries
    files := file_entries
    owners_map := file_entries.foldl addFileOwners []
    tags_map := file_entries.foldl addFileTags [] }

/-- Environment for one `load_cache` call: the outcome of each external
operation on the cache file.  `firstByte = none` models a file of fewer than
one byte (`read_exact` fails); `jsonResult`/`bincodeResult` give what
`serde_json` / `bincode` deserialization of the file's bytes would produce. -/
structure LoadEnv where
  openOk : Bool
  firstByte : Option Char
  jsonResult : Option CodeownersCache
  bincodeResult : Option CodeownersCache

/-- `load_cache` from `core/cache.rs` lines 160-202: peek the first byte; an
opening brace routes to JSON deserialization only; anything else tries
bincode first and falls back to JSON; every failure is an `Except.error`
value. -/
def load_cache (env : LoadEnv) : Except Unit CodeownersCache :=
  if !env.openOk then Except.error ()
  else if env.firstByte = some '{' then
    match env.jsonResult with
    | some cache => Except.ok cache
    | none => Except.error ()
  else
    match env.bincodeResult with
    | some cache => Except.ok cache
    | none =>
      match env.jsonResult with
      | some cache => Except.ok cache
      | none => Except.error ()

/-- Environment for one `sync_cache` call: the outcome of each external
operation it (or its rebuild path) performs. -/
structure SyncEnv where
  /-- `AppConfig::fetch()` succeeds. -/
  configFetchOk : Bool
  /-- `repo.join(cache_file).exists()`. -/
  cacheExists : Bool
  /-- Result of `load_cache` on the joined cache path (`none` = load failed). -/
  loadResult : Option CodeownersCache
  /-- Result of `get_repo_hash(repo)` (`none` = repository access failed). -/
  repoHashResult : Option Hash
  /-- The rule files `find_codeowners_files` discovers, as (path, lines). -/
  ruleFiles : List (Str × List Str)
  /-- The repository files `find_files` discovers. -/
  allFiles : List Str
  /-- Abstracted per-file resolution (see `build_cache`). -/
  resolve : Str → List Owner × List Tag
  /-- `store_cache` succeeds. -/
  storeOk : Bool

/-- Result of a `sync_cache` call: what is returned, and what (if anything)
was persisted to the cache file. -/
structure SyncResult where
  returned : Except Unit CodeownersCache
  stored : Option CodeownersCache
deriving Repr

/-- Modelled from the spec: `parse_repo` (module `core::parse`, called by
`sync_cache` but not present in the provided sources).  §4.7: "Rebuild means:
re-discover rule files, re-parse, re-walk all repository files, re-run the
Cache Builder, and persist the result".  Fingerprinting failure and
persistence failure are fatal per §7.  The freshly built cache is both
persisted and returned. -/
def parse_repo (env : SyncEnv) : SyncResult :=
  match env.repoHashResult with
  | none => ⟨Except.error (), none⟩
  | some h =>
    let entries := (env.ruleFiles.map fun rf => parse_codeowners rf.2 rf.1).flatten
    let fresh := build_cache env.resolve entries env.allFiles h
    if env.storeOk then ⟨Except.ok fresh, some fresh⟩
    else ⟨Except.error (), none⟩

/-- `sync_cache` from `core/cache.rs` lines 204-252: fetch the configured
default cache path, then check in order — cache file exists, cache loads,
format version matches, repository fingerprint matches — rebuilding via
`parse_repo` at the first failed check and reusing the loaded cache as-is
only when all four hold. -/
def sync_cache (env : SyncEnv) : SyncResult :=
  if !env.configFetchOk then ⟨Except.error (), none⟩
  else if !env.cacheExists then parse_repo env
  else
    match env.loadResult with
    | none => parse_repo env
    | some cache =>
      if cache.version ≠ CACHE_VERSION then parse_repo env
      else
        match env.repoHashResult with
        | none => ⟨Except.error (), none⟩
        | some current_hash =>
          if cache.hash ≠ current_hash then parse_repo env
          else ⟨Except.ok cache, none⟩

/-! ## History inference engine (`core/commands/infer_owners.rs`)

Scores are `f64` in the source; they are sums, quotients and products of
small integer line counts and are embedded as exact rationals. -/

/-- One blame hunk, as consumed by `analyze_by_lines`: the author email of the
hunk's final signature, `lines_in_hunk`, and the precomputed
`(now - commit_time) / 86400` value. -/
structure Hunk where
  email : Str
  lines_in_hunk : Nat
  days_ago : Nat
deriving DecidableEq, Repr

/-- `InferredOwner` from `core/commands/infer_owners.rs` lines 38-46. -/
structure InferredOwner where
  email : Str
  username : Option Str
  score : ℚ
  commits : Nat
  lines : Nat
  last_commit_days_ago : Nat
deriving DecidableEq, Repr

/-- `u32::MAX`, the initial `last_commit_days_ago`. -/
def U32_MAX : Nat := 4294967295

/-- One hunk step of the `analyze_by_lines` loop (`infer_owners.rs` lines
242-263): `entry(email).or_insert_with(default)` followed by the in-place
updates, on an insertion-ordered association list of contributors. -/
def updateContributor (m : List InferredOwner) (h : Hunk) : List InferredOwner :=
  if m.any (fun c => c.email = h.email) then
    m.map fun c =>
      if c.email = h.email then
        { c with lines := c.lines + h.lines_in_hunk
                 score := c.score + h.lines_in_hunk
                 commits := c.commits + 1
                 last_commit_days_ago := min c.last_commit_days_ago h.days_ago }
      else c
  else
    m ++ [{ email := h.email, username := none
            score := (h.lines_in_hunk : ℚ), commits := 1, lines := h.lines_in_hunk
            last_commit_days_ago := min U32_MAX h.days_ago }]

/-- `analyze_by_lines` from `infer_owners.rs` lines 239-268: aggregate blame
hunks per author email, then `retain` contributors with at least
`min_commits` commits. -/
def analyze_by_lines (blame : List Hunk) (min_commits : Nat) : List InferredOwner :=
  (blame.foldl updateContributor []).filter fun c => min_commits ≤ c.commits

/-- Insert into a list kept sorted by score descending (stable: equal scores
keep their relative order). -/
def insertDesc (x : InferredOwner) : List InferredOwner → List InferredOwner
  | [] => [x]
  | y :: ys => if x.score ≤ y.score then y :: insertDesc x ys else x :: y :: ys

/-- `inferred_owners.sort_by(|a, b| b.score.partial_cmp(&a.score).unwrap())`:
sort by score descending (insertion sort; the source's ordering among equal
scores depends on unspecified `HashMap` iteration order). -/
def sortByScoreDesc (l : List InferredOwner) : List InferredOwner :=
  l.foldr insertDesc []

/-- The filtering, sorting and confidence computation of
`analyze_file_ownership` (`infer_owners.rs` lines 186-213), applied to the
contributor map the selected algorithm produced: compute `total_score` over
all contributors, drop those under `min_percentage`% of it, sort by score
descending, and derive the confidence value.  Returns the final
`inferred_owners` list and the confidence. -/
def filterSortAndConfidence (contributors : List InferredOwner) (min_percentage : Nat) :
    List InferredOwner × ℚ :=
  let total_score : ℚ := (contributors.map fun c => c.score).sum
  let min_score : ℚ := ((min_percentage : ℚ) / 100) * total_score
  let inferred_owners := sortByScoreDesc (contributors.filter fun c => min_score ≤ c.score)
  let confidence : ℚ :=
    match inferred_owners with
    | [] => 0
    | top :: _ =>
      let score_ratio := if 0 < total_score then top.score / total_score else 0
      let candidate_penalty : ℚ := 1 - ((min inferred_owners.length 5 : ℕ) : ℚ) * (1 / 10)
      min (max (score_ratio * candidate_penalty) 0) 1
  (inferred_owners, confidence)

/-- `analyze_file_ownership` (`infer_owners.rs` lines 152-214) specialized to
`InferAlgorithm::Lines`, from the blame data onward: run `analyze_by_lines`,
then filter, sort and compute confidence.  The parts reading the repository
and the existing cache do not feed into the candidate list or the
confidence. -/
def analyze_file_ownership_lines (blame : List Hunk) (min_commits min_percentage : Nat) :
    List InferredOwner × ℚ :=
  filterSortAndConfidence (analyze_by_lines blame min_commits) min_percentage

/-! ## C9: pattern normalization -/

theorem endsWith_append_stars (q : Str) : endsWith (q ++ ['*', '*']) ['/'] = false := by
  simp [endsWith, List.isPrefixOf]

theorem normalize_of_cond (p : Str) (h1 : endsWith p ['/'] = true)
    (h2 : endsWith p ['*', '/'] = false) (h3 : endsWith p ['*', '*', '/'] = false) :
    normalize_codeowners_pattern p = p ++ ['*', '*'] := by
  simp [normalize_codeowners_pattern, h1, h2, h3]

theorem normalize_of_not_cond (p : Str)
    (h : ¬(endsWith p ['/'] = true ∧ endsWith p ['*', '/'] = false
            ∧ endsWith p ['*', '*', '/'] = false)) :
    normalize_codeowners_pattern p = p := by
  rw [normalize_codeowners_pattern, if_neg]
  intro hc
  exact h ⟨by
    rcases Bool.and_eq_true _ _ |>.mp hc with ⟨hc1, _⟩
    exact (Bool.and_eq_true _ _ |>.mp hc1).1,
    by
    rcases Bool.and_eq_true _ _ |>.mp hc with ⟨hc1, _⟩
    have := (Bool.and_eq_true _ _ |>.mp hc1).2
    simpa using this,
    by simpa using (Bool.and_eq_true _ _ |>.mp hc).2⟩

/-- **C9**: pattern normalization is idempotent; a pattern with a single
trailing slash (not `*/`, not `**/`) gains a trailing `**`; every other
pattern is returned unchanged. -/
theorem normalize_pattern_idempotent (p : Str) :
    normalize_codeowners_pattern (normalize_codeowners_pattern p)
        = normalize_codeowners_pattern p ∧
    (endsWith p ['/'] = true → endsWith p ['*', '/'] = false →
      endsWith p ['*', '*', '/'] = false →
      normalize_codeowners_pattern p = p ++ ['*', '*']) ∧
    (¬(endsWith p ['/'] = true ∧ endsWith p ['*', '/'] = false
        ∧ endsWith p ['*', '*', '/'] = false) →
      normalize_codeowners_pattern p = p) := by
  refine ⟨?_, fun h1 h2 h3 => normalize_of_cond p h1 h2 h3, normalize_of_not_cond p⟩
  by_cases hc : endsWith p ['/'] = true ∧ endsWith p ['*', '/'] = false
      ∧ endsWith p ['*', '*', '/'] = false
  · rw [normalize_of_cond p hc.1 hc.2.1 hc.2.2]
    exact normalize_of_not_cond _ (fun hcc => by
      have := hcc.1
      rw [endsWith_append_stars] at this
      exact Bool.false_ne_true this)
  · rw [normalize_of_not_cond p hc, normalize_of_not_cond p hc]

/-- Witness for C9 at `p = "docs/"`. -/
theorem normalize_pattern_idempotent_witness :
    normalize_codeowners_pattern ("docs/".toList) = "docs/**".toList :=
  (normalize_pattern_idempotent ("docs/".toList)).2.1 (by decide) (by decide) (by decide)

/-! ## C6: owner classification -/

theorem splitOn_length (sep : Char) (l : Str) :
    (splitOn sep l).length = l.count sep + 1 := by
  induction l with
  | nil => simp [splitOn]
  | cons c rest ih =>
    by_cases h : c = sep
    · subst h
      simp [splitOn, List.count_cons, ih]
    · have hne : splitOn sep rest ≠ [] := by
        intro hnil
        rw [hnil] at ih
        simp at ih
      obtain ⟨t, ts, ht⟩ := List.exists_cons_of_ne_nil hne
      rw [ht] at ih
      have hb : (c == sep) = false := by simpa using h
      simp only [splitOn, if_neg h, ht, List.length_cons, List.count_cons, hb,
        Bool.false_eq_true, if_false]
      simp only [List.length_cons] at ih
      omega

/-- The claim's classification chain, stated in its own words: a
case-insensitive `NOOWNER` → Unowned; else a leading `'@'` whose remainder
holds exactly one `'/'` → Team; any other leading `'@'` → User; else a string
containing `'@'` → Email; else Unknown. -/
def claimOwnerType (s : Str) : OwnerType :=
  if eqIgnoreAsciiCase s NOOWNER_CHARS then OwnerType.Unowned
  else
    match stripPrefixChar '@' s with
    | some rest => if rest.count '/' = 1 then OwnerType.Team else OwnerType.User
    | none => if s.contains '@' then OwnerType.Email else OwnerType.Unknown

/-- **C6**: `parse_owner` is total (it is a function), keeps the identifier
verbatim, and classifies by the claim's disjoint decision chain: `NOOWNER`
case-insensitively → Unowned, else leading `'@'` with exactly one `'/'` in
the remainder → Team, any other leading `'@'` → User, else containing `'@'`
→ Email, else Unknown. -/
theorem parse_owner_classification (s : Str) :
    parse_owner s = { identifier := s, owner_type := claimOwnerType s } := by
  unfold parse_owner claimOwnerType
  by_cases hno : eqIgnoreAsciiCase s NOOWNER_CHARS = true
  · simp [hno]
  · simp only [Bool.not_eq_true] at hno
    cases hs : stripPrefixChar '@' s with
    | none => simp [hno, hs]
    | some stripped =>
      have hlen : ((splitOn '/' stripped).length = 2) ↔ (stripped.count '/' = 1) := by
        rw [splitOn_length]
        omega
      by_cases h1 : stripped.count '/' = 1
      · simp [hno, hs, hlen.mpr h1, h1]
      · have h2 : ¬(splitOn '/' stripped).length = 2 := fun h => h1 (hlen.mp h)
        simp [hno, hs, h1, h2]

/-! ## C5: cache load auto-detection -/

/-- **C5**: `load_cache` peeks the first byte; an opening `'{'` routes to the
readable JSON decoding only (the binary decoder is never consulted there);
any other (or unreadable) first byte attempts the binary decoding first and
falls back to JSON before failing; and every load failure — open failure
included — is a recoverable `Except.error` value, never a crash. -/
theorem load_cache_detection (env : LoadEnv) :
    (env.openOk = false → load_cache env = Except.error ()) ∧
    (env.openOk = true → env.firstByte = some '{' →
      (∀ b, load_cache { env with bincodeResult := b } = load_cache env) ∧
      load_cache env = (match env.jsonResult with
        | some cache => Except.ok cache
        | none => Except.error ())) ∧
    (env.openOk = true → ¬env.firstByte = some '{' →
      load_cache env = (match env.bincodeResult with
        | some cache => Except.ok cache
        | none =>
          match env.jsonResult with
          | some cache => Except.ok cache
          | none => Except.error ())) ∧
    ((∃ cache, load_cache env = Except.ok cache) ∨ load_cache env = Except.error ()) := by
  refine ⟨?_, ?_, ?_, ?_⟩
  · intro h
    simp [load_cache, h]
  · intro ho hb
    exact ⟨fun b => by simp [load_cache, ho, hb], by simp [load_cache, ho, hb]⟩
  · intro ho hb
    simp [load_cache, ho, hb]
  · cases hle : load_cache env with
    | error e => exact Or.inr (by cases e; rfl)
    | ok cache => exact Or.inl ⟨cache, rfl⟩

/-- A concrete empty cache value used by witnesses. -/
def emptyCacheEx : CodeownersCache :=
  { version := CACHE_VERSION, hash := [7], entries := [], files := []
    owners_map := [], tags_map := [] }

/-- A concrete load environment: not JSON-looking, bincode decodes. -/
def loadEnvEx : LoadEnv :=
  { openOk := true, firstByte := some 'b', jsonResult := none
    bincodeResult := some emptyCacheEx }

/-- Witness for C5: binary-first decoding succeeds on a non-`'{'` file. -/
theorem load_cache_detection_witness :
    load_cache loadEnvEx = Except.ok emptyCacheEx := by
  have h := (load_cache_detection loadEnvEx).2.2.1 rfl (by decide)
  simpa using h

/-! ## C1: cache sync state machine -/

/-- **C1**: `sync_cache` returns the loaded cache unchanged exactly when the
cache file exists, it loads, its version equals `CACHE_VERSION`, and its
stored fingerprint equals the freshly computed one; the four checks
short-circuit in that order (each rebuild case needs no assumption about any
later check), and every failed check leads to the full `parse_repo` rebuild —
which re-parses every rule file, re-resolves every repository file via
`build_cache`, persists the fresh cache, and returns it — rather than a
partial patch or an error. -/
theorem sync_cache_state_machine (env : SyncEnv) :
    (env.configFetchOk = true → env.cacheExists = false →
      sync_cache env = parse_repo env) ∧
    (env.configFetchOk = true → env.cacheExists = true → env.loadResult = none →
      sync_cache env = parse_repo env) ∧
    (∀ cache, env.configFetchOk = true → env.cacheExists = true →
      env.loadResult = some cache → cache.version ≠ CACHE_VERSION →
      sync_cache env = parse_repo env) ∧
    (∀ cache hsh, env.configFetchOk = true → env.cacheExists = true →
      env.loadResult = some cache → cache.version = CACHE_VERSION →
      env.repoHashResult = some hsh → cache.hash ≠ hsh →
      sync_cache env = parse_repo env) ∧
    (∀ cache hsh, env.configFetchOk = true → env.cacheExists = true →
      env.loadResult = some cache → cache.version = CACHE_VERSION →
      env.repoHashResult = some hsh → cache.hash = hsh →
      sync_cache env = ⟨Except.ok cache, none⟩) ∧
    (∀ hsh, env.repoHashResult = some hsh → env.storeOk = true →
      parse_repo env =
        ⟨Except.ok (build_cache env.resolve
            ((env.ruleFiles.map fun rf => parse_codeowners rf.2 rf.1).flatten)
            env.allFiles hsh),
         some (build_cache env.resolve
            ((env.ruleFiles.map fun rf => parse_codeowners rf.2 rf.1).flatten)
            env.allFiles hsh)⟩) := by
  refine ⟨?_, ?_, ?_, ?_, ?_, ?_⟩
  · intro hc he
    simp [sync_cache, hc, he]
  · intro hc he hl
    simp [sync_cache, hc, he, hl]
  · intro cache hc he hl hv
    simp [sync_cache, hc, he, hl, hv]
  · intro cache hsh hc he hl hv hr hh
    simp [sync_cache, hc, he, hl, hv, hr, hh]
  · intro cache hsh hc he hl hv hr hh
    simp [sync_cache, hc, he, hl, hv, hr, hh]
  · intro hsh hr hs
    simp [parse_repo, hr, hs]

/-- A concrete valid sync environment: present, loadable, matching version
and fingerprint. -/
def syncEnvEx : SyncEnv :=
  { configFetchOk := true, cacheExists := true, loadResult := some emptyCacheEx
    repoHashResult := some [7], ruleFiles := [], allFiles := []
    resolve := fun _ => ([], []), storeOk := true }

/-- Witness for C1: a fully valid cache is reused as-is and nothing is
persisted. -/
theorem sync_cache_state_machine_witness :
    sync_cache syncEnvEx = ⟨Except.ok emptyCacheEx, none⟩ :=
  (sync_cache_state_machine syncEnvEx).2.2.2.2.1 emptyCacheEx [7]
    rfl rfl rfl rfl rfl rfl

/-! ## C2: the reverse indices invert the file list -/

theorem mapFind_of_not_any {κ π : Type} [DecidableEq κ]
    (m : List (κ × List π)) (k : κ)
    (h : m.any (fun kv => kv.1 = k) = false) : mapFind m k = [] := by
  induction m with
  | nil => rfl
  | cons kv m ih =>
    simp only [List.any_cons, Bool.or_eq_false_iff] at h
    have h1 : ¬kv.1 = k := by simpa using h.1
    simp [mapFind, h1, ih h.2]

theorem mapFind_map_append_ne {κ π : Type} [DecidableEq κ]
    (m : List (κ × List π)) (k k1 : κ) (v : π) (hne : k1 ≠ k) :
    mapFind (m.map (fun kv => if kv.1 = k then (kv.1, kv.2 ++ [v]) else kv)) k1
      = mapFind m k1 := by
  induction m with
  | nil => rfl
  | cons kv m ih =>
    by_cases hk1 : kv.1 = k1
    · have hk : ¬kv.1 = k := fun h => hne (by rw [← hk1, h])
      simp [mapFind, hk, hk1, hne, ih]
    · by_cases hk : kv.1 = k
      · have hkk : ¬k = k1 := fun h => hk1 (hk.trans h)
        simp [mapFind, hk, hk1, hkk, ih]
      · simp [mapFind, hk, hk1, ih]

theorem mapFind_map_append_eq {κ π : Type} [DecidableEq κ]
    (m : List (κ × List π)) (k : κ) (v : π)
    (hany : m.any (fun kv => kv.1 = k) = true) :
    mapFind (m.map (fun kv => if kv.1 = k then (kv.1, kv.2 ++ [v]) else kv)) k
      = mapFind m k ++ [v] := by
  induction m with
  | nil => simp at hany
  | cons kv m ih =>
    by_cases hk : kv.1 = k
    · simp [mapFind, hk]
    · have hany2 : m.any (fun kv => kv.1 = k) = true := by
        simp only [List.any_cons, Bool.or_eq_true_iff] at hany
        rcases hany with h | h
        · exact absurd (by simpa using h) hk
        · exact h
      simp [mapFind, hk, ih hany2]

theorem mapFind_append_of_any {κ π : Type} [DecidableEq κ]
    (m m2 : List (κ × List π)) (k : κ)
    (hany : m.any (fun kv => kv.1 = k) = true) :
    mapFind (m ++ m2) k = mapFind m k := by
  induction m with
  | nil => simp at hany
  | cons kv m ih =>
    by_cases hk : kv.1 = k
    · simp [mapFind, hk]
    · have hany2 : m.any (fun kv => kv.1 = k) = true := by
        simp only [List.any_cons, Bool.or_eq_true_iff] at hany
        rcases hany with h | h
        · exact absurd (by simpa using h) hk
        · exact h
      simp [mapFind, hk, ih hany2]

theorem mapFind_append_of_not_any {κ π : Type} [DecidableEq κ]
    (m m2 : List (κ × List π)) (k : κ)
    (h : m.any (fun kv => kv.1 = k) = false) :
    mapFind (m ++ m2) k = mapFind m2 k := by
  induction m with
  | nil => simp
  | cons kv m ih =>
    simp only [List.any_cons, Bool.or_eq_false_iff] at h
    have h1 : ¬kv.1 = k := by simpa using h.1
    simp [mapFind, h1, ih h.2]

/-- Membership after one `entry(k).or_insert(vec![]).push(v)` step. -/
theorem mem_mapFind_insertAppend {κ π : Type} [DecidableEq κ]
    (m : List (κ × List π)) (k k1 : κ) (v p : π) :
    p ∈ mapFind (mapInsertAppend m k v) k1 ↔
      p ∈ mapFind m k1 ∨ (k1 = k ∧ p = v) := by
  cases hany : m.any (fun kv => kv.1 = k) with
  | true =>
    rw [mapInsertAppend, if_pos hany]
    by_cases hk1 : k1 = k
    · subst hk1
      rw [mapFind_map_append_eq m k1 v hany]
      simp
    · rw [mapFind_map_append_ne m k k1 v hk1]
      simp [hk1]
  | false =>
    rw [mapInsertAppend,
      if_neg (fun hc => by rw [hany] at hc; exact Bool.false_ne_true hc)]
    cases hk1 : m.any (fun kv => kv.1 = k1) with
    | true =>
      rw [mapFind_append_of_any m _ k1 hk1]
      have hne : ¬(k1 = k) := by
        intro h
        rw [h] at hk1
        rw [hany] at hk1
        exact Bool.false_ne_true hk1
      simp [hne]
    | false =>
      rw [mapFind_append_of_not_any m _ k1 hk1, mapFind_of_not_any m k1 hk1]
      by_cases he : k = k1
      · subst he
        simp [mapFind]
      · have hne : ¬(k1 = k) := fun h => he h.symm
        simp [mapFind, he, hne]

/-- Membership after pushing one file's path for all keys in `ks`. -/
theorem mem_mapFind_foldKeys {κ π : Type} [DecidableEq κ]
    (ks : List κ) (path : π) (m : List (κ × List π)) (k : κ) (p : π) :
    p ∈ mapFind (ks.foldl (fun acc x => mapInsertAppend acc x path) m) k ↔
      p ∈ mapFind m k ∨ (k ∈ ks ∧ p = path) := by
  induction ks generalizing m with
  | nil => simp
  | cons x ks ih =>
    rw [List.foldl_cons, ih, mem_mapFind_insertAppend]
    simp only [List.mem_cons]
    constructor
    · rintro ((h | ⟨hk, hp⟩) | ⟨hks, hp⟩)
      · exact Or.inl h
      · exact Or.inr ⟨Or.inl hk, hp⟩
      · exact Or.inr ⟨Or.inr hks, hp⟩
    · rintro (h | ⟨hk | hks, hp⟩)
      · exact Or.inl (Or.inl h)
      · exact Or.inl (Or.inr ⟨hk, hp⟩)
      · exact Or.inr ⟨hks, hp⟩

/-- Membership after the whole single-pass index-building loop, owners
half. -/
theorem mem_mapFind_foldOwners (fes : List FileEntry)
    (m : List (Owner × List Str)) (o : Owner) (p : Str) :
    p ∈ mapFind (fes.foldl addFileOwners m) o ↔
      p ∈ mapFind m o ∨ ∃ fe, fe ∈ fes ∧ p = fe.path ∧ o ∈ fe.owners := by
  induction fes generalizing m with
  | nil => simp
  | cons fe fes ih =>
    rw [List.foldl_cons, ih,
      show addFileOwners m fe
          = fe.owners.foldl (fun acc x => mapInsertAppend acc x fe.path) m from rfl,
      mem_mapFind_foldKeys]
    simp only [List.mem_cons]
    constructor
    · rintro ((h | ⟨hk, hp⟩) | ⟨fe2, hfe2, hp, hk⟩)
      · exact Or.inl h
      · exact Or.inr ⟨fe, Or.inl rfl, hp, hk⟩
      · exact Or.inr ⟨fe2, Or.inr hfe2, hp, hk⟩
    · rintro (h | ⟨fe2, hfe2 | hfe2, hp, hk⟩)
      · exact Or.inl (Or.inl h)
      · exact Or.inl (Or.inr ⟨hfe2 ▸ hk, hfe2 ▸ hp⟩)
      · exact Or.inr ⟨fe2, hfe2, hp, hk⟩

/-- Membership after the whole single-pass index-building loop, tags half. -/
theorem mem_mapFind_foldTags (fes : List FileEntry)
    (m : List (Tag × List Str)) (t : Tag) (p : Str) :
    p ∈ mapFind (fes.foldl addFileTags m) t ↔
      p ∈ mapFind m t ∨ ∃ fe, fe ∈ fes ∧ p = fe.path ∧ t ∈ fe.tags := by
  induction fes generalizing m with
  | nil => simp
  | cons fe fes ih =>
    rw [List.foldl_cons, ih,
      show addFileTags m fe
          = fe.tags.foldl (fun acc x => mapInsertAppend acc x fe.path) m from rfl,
      mem_mapFind_foldKeys]
    simp only [List.mem_cons]
    constructor
    · rintro ((h | ⟨hk, hp⟩) | ⟨fe2, hfe2, hp, hk⟩)
      · exact Or.inl h
      · exact Or.inr ⟨fe, Or.inl rfl, hp, hk⟩
      · exact Or.inr ⟨fe2, Or.inr hfe2, hp, hk⟩
    · rintro (h | ⟨fe2, hfe2 | hfe2, hp, hk⟩)
      · exact Or.inl (Or.inl h)
      · exact Or.inl (Or.inr ⟨hfe2 ▸ hk, hfe2 ▸ hp⟩)
      · exact Or.inr ⟨fe2, hfe2, hp, hk⟩

/-- **C2**: in every cache built by `build_cache` — for any resolution
outcomes — the reverse indices are exactly the inverse of the file list: an
owner `o` maps to a path `p` in `owners_map` iff some file entry for `p`
lists `o` among its owners, and a tag `t` maps to `p` in `tags_map` iff some
file entry for `p` lists `t` among its tags. -/
theorem build_cache_index_inverse (resolve : Str → List Owner × List Tag)
    (entries : List CodeownersEntry) (files : List Str) (hash : Hash) :
    (∀ (o : Owner) (p : Str),
      p ∈ mapFind (build_cache resolve entries files hash).owners_map o ↔
        ∃ fe, fe ∈ (build_cache resolve entries files hash).files ∧
          p = fe.path ∧ o ∈ fe.owners) ∧
    (∀ (t : Tag) (p : Str),
      p ∈ mapFind (build_cache resolve entries files hash).tags_map t ↔
        ∃ fe, fe ∈ (build_cache resolve entries files hash).files ∧
          p = fe.path ∧ t ∈ fe.tags) := by
  constructor
  · intro o p
    show p ∈ mapFind ((files.map fun q =>
        FileEntry.mk q (resolve q).1 (resolve q).2).foldl addFileOwners []) o ↔ _
    rw [mem_mapFind_foldOwners]
    simp [mapFind, build_cache]
  · intro t p
    show p ∈ mapFind ((files.map fun q =>
        FileEntry.mk q (resolve q).1 (resolve q).2).foldl addFileTags []) t ↔ _
    rw [mem_mapFind_foldTags]
    simp [mapFind, build_cache]

/-! ## C10: line-number bases -/

theorem parse_line_line_number (line : Str) (n : Nat) (path : Str)
    (e : CodeownersEntry) (h : parse_line line n path = some e) :
    e.line_number = n := by
  simp only [parse_line] at h
  split at h
  · exact absurd h (by simp)
  · split at h
    · exact absurd h (by simp)
    · injection h with h2
      subst h2
      rfl

theorem parse_inline_line_number (line : Str) (n : Nat) (path : Str)
    (e : InlineCodeownersEntry)
    (h : parse_inline_codeowners_line line n path = some e) :
    e.line_number = n := by
  simp only [parse_inline_codeowners_line] at h
  split at h
  · exact absurd h (by simp)
  · split at h
    · exact absurd h (by simp)
    · split at h
      · exact absurd h (by simp)
      · injection h with h2
        subst h2
        rfl

/-- **C10**: the rule parser records 0-based line numbers (an entry parsed
from a file's first line carries `line_number = 0`), while the inline marker
scanner records 1-based ones (an entry found on a file's first line carries
`line_number = 1`). -/
theorem line_number_bases :
    (∀ (l : Str) (rest : List Str) (path : Str) (e : CodeownersEntry),
      parse_line l 0 path = some e →
      (parse_codeowners (l :: rest) path).head? = some e ∧ e.line_number = 0) ∧
    (∀ (l : Str) (rest : List Str) (path : Str) (e : InlineCodeownersEntry),
      parse_inline_codeowners_line l 1 path = some e →
      detect_inline_codeowners path (some (l :: rest)) = some e ∧
        e.line_number = 1) := by
  constructor
  · intro l rest path e h
    refine ⟨?_, parse_line_line_number l 0 path e h⟩
    simp only [parse_codeowners, parse_codeowners_from, h]
    rfl
  · intro l rest path e h
    refine ⟨?_, parse_inline_line_number l 1 path e h⟩
    have h50 : detect_inline_codeowners path (some (l :: rest)) =
        scanInlineLines path 0 (l :: rest.take 49) := rfl
    rw [h50]
    simp only [scanInlineLines]
    simp [h]

/-- Witness for C10, rule-parser half at a one-line file. -/
theorem line_number_bases_witness :
    (parse_codeowners ["*.rs @a".toList] ("/C".toList)).head? =
      some { source_file := "/C".toList, line_number := 0
             pattern := "*.rs".toList
             owners := [{ identifier := "@a".toList, owner_type := OwnerType.User }]
             tags := [] } :=
  (line_number_bases.1 ("*.rs @a".toList) [] ("/C".toList)
    { source_file := "/C".toList, line_number := 0
      pattern := "*.rs".toList
      owners := [{ identifier := "@a".toList, owner_type := OwnerType.User }]
      tags := [] } (by decide)).1

/-! ## C7: parse_line -/

theorem head_dropWhile_not {α : Type} (p : α → Bool) (l : List α) (c : α)
    (rest : List α) (h : l.dropWhile p = c :: rest) : p c = false := by
  induction l with
  | nil => simp at h
  | cons a as ih =>
    rw [List.dropWhile_cons] at h
    by_cases hp : p a = true
    · rw [if_pos hp] at h
      exact ih h
    · rw [if_neg hp] at h
      injection h with h1 _
      subst h1
      simpa using hp

theorem dropWhile_suffix_exists {α : Type} (p : α → Bool) (l : List α) :
    ∃ u, l = u ++ l.dropWhile p := by
  induction l with
  | nil => exact ⟨[], rfl⟩
  | cons a as ih =>
    by_cases hp : p a = true
    · obtain ⟨u, hu⟩ := ih
      exact ⟨a :: u, by rw [List.dropWhile_cons, if_pos hp, List.cons_append, ← hu]⟩
    · exact ⟨[], by rw [List.dropWhile_cons, if_neg hp, List.nil_append]⟩

/-- The head of a trimmed string is never whitespace. -/
theorem trim_head_not_ws (s : Str) (c : Char) (rest : Str)
    (h : trim s = c :: rest) : c.isWhitespace = false := by
  unfold trim at h
  obtain ⟨u, hu⟩ :=
    dropWhile_suffix_exists Char.isWhitespace (s.dropWhile Char.isWhitespace).reverse
  have hX : s.dropWhile Char.isWhitespace =
      ((s.dropWhile Char.isWhitespace).reverse.dropWhile Char.isWhitespace).reverse
        ++ u.reverse := by
    have h2 := congrArg List.reverse hu
    simpa [List.reverse_append] using h2
  rw [h] at hX
  rw [List.cons_append] at hX
  exact head_dropWhile_not Char.isWhitespace s c _ hX

theorem splitWSAux_ne_nil (s acc : Str) (hacc : acc ≠ []) :
    splitWSAux acc s ≠ [] := by
  induction s generalizing acc with
  | nil =>
    have : acc.isEmpty = false := by simpa using hacc
    simp [splitWSAux, this]
  | cons c rest ih =>
    show splitWSAux acc (c :: rest) ≠ []
    rw [splitWSAux]
    by_cases hc : c.isWhitespace = true
    · rw [if_pos hc]
      have : acc.isEmpty = false := by simpa using hacc
      rw [this]
      simp
    · rw [if_neg hc]
      exact ih (c :: acc) (by simp)

theorem splitWhitespace_ne_nil (c : Char) (rest : Str)
    (hc : c.isWhitespace = false) : splitWhitespace (c :: rest) ≠ [] := by
  show splitWSAux [] (c :: rest) ≠ []
  rw [splitWSAux, if_neg (by simp [hc])]
  exact splitWSAux_ne_nil rest [c] (by simp)

/-- The claim's tag-collection rule, in its own words: walk the tokens; a
bare `'#'` always terminates; a token `#name` is accepted as a tag only when
it is not immediately followed by a non-`'#'`-prefixed token; a token without
the `'#'` marker terminates. -/
def claimTags : List Str → List Tag
  | [] => []
  | t :: rest =>
    if t = ['#'] then []
    else
      match stripPrefixChar '#' t with
      | some tagName =>
        if nextIsNonTag rest then [] else ⟨tagName⟩ :: claimTags rest
      | none => []

theorem collectTags_eq_claimTags (ts : List Str) :
    collectTags ts = claimTags ts := by
  induction ts with
  | nil => rfl
  | cons t rest ih =>
    cases hstrip : stripPrefixChar '#' t with
    | none =>
      have hne : ¬(t = ['#']) := by
        intro he
        rw [he] at hstrip
        simp [stripPrefixChar] at hstrip
      simp [collectTags, claimTags, hstrip, hne]
    | some tagName =>
      by_cases hemp : tagName.isEmpty = true
      · have ht : t = ['#'] := by
          cases t with
          | nil => simp [stripPrefixChar] at hstrip
          | cons a tn =>
            simp only [stripPrefixChar] at hstrip
            by_cases ha : a = '#'
            · rw [if_pos ha] at hstrip
              injection hstrip with h2
              subst h2
              rw [ha, List.isEmpty_iff.mp hemp]
            · rw [if_neg ha] at hstrip
              exact absurd hstrip (by simp)
        simp [collectTags, claimTags, stripPrefixChar, ht, hemp]
      · have hne : ¬(t = ['#']) := by
          intro he
          rw [he] at hstrip
          simp only [stripPrefixChar, if_pos rfl] at hstrip
          injection hstrip with h2
          rw [← h2] at hemp
          simp at hemp
        simp only [collectTags, claimTags, hstrip, hne, hemp, ih, if_neg hne]
        simp [hemp]

/-- **C7**: `parse_line` yields no entry exactly when the trimmed line is
empty or starts with `'#'`; otherwise it yields an entry whose pattern is the
first whitespace token, whose owners are the parses of the following tokens
up to the first `'#'`-token, and whose tags obey the claim's one-token
lookahead rule (`claimTags`); being a total function, it never fails. -/
theorem parse_line_spec (line : Str) (n : Nat) (path : Str) :
    (parse_line line n path = none ↔
      (trim line = [] ∨ startsWithChar '#' (trim line) = true)) ∧
    (∀ pat rest, trim line ≠ [] → startsWithChar '#' (trim line) = false →
      splitWhitespace (trim line) = pat :: rest →
      parse_line line n path = some
        { source_file := path, line_number := n, pattern := pat
          owners := (rest.takeWhile fun t => !(startsWithChar '#' t)).map parse_owner
          tags := claimTags (rest.dropWhile fun t => !(startsWithChar '#' t)) }) := by
  constructor
  · constructor
    · intro h
      by_contra hn
      push_neg at hn
      obtain ⟨h1, h2⟩ := hn
      obtain ⟨c, crest, hcr⟩ := List.exists_cons_of_ne_nil h1
      have hcond : ((trim line).isEmpty || startsWithChar '#' (trim line)) = false := by
        have he : (trim line).isEmpty = false := by simp [List.isEmpty_iff, h1]
        have hs : startsWithChar '#' (trim line) = false := by
          cases hv : startsWithChar '#' (trim line)
          · rfl
          · exact absurd hv h2
        rw [he, hs]
        rfl
      have htok : splitWhitespace (trim line) ≠ [] := by
        rw [hcr]
        exact splitWhitespace_ne_nil c crest (trim_head_not_ws line c crest hcr)
      obtain ⟨pat, rest, hsp⟩ := List.exists_cons_of_ne_nil htok
      simp only [parse_line, hcond, Bool.false_eq_true, if_false, hsp] at h
      exact absurd h (by simp)
    · intro hor
      rcases hor with h1 | h2
      · simp [parse_line, h1]
      · simp [parse_line, h2]
  · intro pat rest h1 h2 hsp
    have hcond : ((trim line).isEmpty || startsWithChar '#' (trim line)) = false := by
      have he : (trim line).isEmpty = false := by simp [List.isEmpty_iff, h1]
      rw [he, h2]
      rfl
    simp only [parse_line, hcond, Bool.false_eq_true, if_false, hsp,
      collectTags_eq_claimTags]

/-- Witness for C7 at the line `"*.md @docs-team #not a tag"` (the trailing
`#not` is comment prose, not a tag, because a non-`'#'` token follows). -/
theorem parse_line_spec_witness :
    parse_line ("*.md @docs-team #not a tag".toList) 7 ("/C".toList) =
      some { source_file := "/C".toList, line_number := 7
             pattern := "*.md".toList
             owners := [{ identifier := "@docs-team".toList
                          owner_type := OwnerType.User }]
             tags := [] } := by
  have h := (parse_line_spec ("*.md @docs-team #not a tag".toList) 7 ("/C".toList)).2
    ("*.md".toList)
    ["@docs-team".toList, "#not".toList, "a".toList, "tag".toList]
    (by decide) (by decide) (by decide)
  rw [h]
  decide

/-! ## C8: inline marker scanning -/

theorem parse_inline_owners_ne_nil (line : Str) (n : Nat) (path : Str)
    (e : InlineCodeownersEntry)
    (h : parse_inline_codeowners_line line n path = some e) : e.owners ≠ [] := by
  simp only [parse_inline_codeowners_line] at h
  split at h
  · exact absurd h (by simp)
  · split at h
    · exact absurd h (by simp)
    · rename_i after_marker heq tok toks heq2
      split at h
      · exact absurd h (by simp)
      · rename_i hne
        injection h with h2
        subst h2
        simpa using hne

theorem scanInlineLines_some (path : Str) (ls : List Str) (n0 : Nat)
    (e : InlineCodeownersEntry) (h : scanInlineLines path n0 ls = some e) :
    ∃ i l, ls[i]? = some l ∧
      parse_inline_codeowners_line l (n0 + i + 1) path = some e ∧
      ∀ j l2, j < i → ls[j]? = some l2 →
        parse_inline_codeowners_line l2 (n0 + j + 1) path = none := by
  induction ls generalizing n0 with
  | nil => simp [scanInlineLines] at h
  | cons l ls ih =>
    rw [scanInlineLines] at h
    cases hp : parse_inline_codeowners_line l (n0 + 1) path with
    | some e0 =>
      rw [hp] at h
      injection h with h2
      subst h2
      exact ⟨0, l, by simp, by simpa using hp,
        fun j l2 hj _ => absurd hj (Nat.not_lt_zero j)⟩
    | none =>
      rw [hp] at h
      obtain ⟨i, l1, hget, hparse, hprev⟩ := ih (n0 + 1) h
      refine ⟨i + 1, l1, by simpa using hget, ?_, ?_⟩
      · have heq : n0 + 1 + i + 1 = n0 + (i + 1) + 1 := by omega
        rw [← heq]
        exact hparse
      · intro j l2 hj hgetj
        cases j with
        | zero =>
          have hl2 : l = l2 := by simpa using hgetj
          subst hl2
          simpa using hp
        | succ j2 =>
          have hj2 : j2 < i := by omega
          have hres := hprev j2 l2 hj2 (by simpa using hgetj)
          have heq : n0 + 1 + j2 + 1 = n0 + (j2 + 1) + 1 := by omega
          rw [heq] at hres
          exact hres

/-- **C8 counterexample**: the claim says the first line containing the
marker is the only candidate considered, later markers being ignored; but a
first marker line that yields no entry (tags only) does not stop the scan,
and the entry comes from the second marker line. -/
theorem detect_inline_first_marker_counterexample :
    (findSubAfter MARKER ("// !!!CODEOWNERS #tag".toList)).isSome = true ∧
    parse_inline_codeowners_line ("// !!!CODEOWNERS #tag".toList) 1
      ("f.rs".toList) = none ∧
    detect_inline_codeowners ("f.rs".toList)
        (some ["// !!!CODEOWNERS #tag".toList, "// !!!CODEOWNERS @user".toList]) =
      some { file_path := "f.rs".toList, line_number := 2
             owners := [{ identifier := "@user".toList
                          owner_type := OwnerType.User }]
             tags := [] } := by
  refine ⟨by decide, by decide, by decide⟩

/-- **C8 (amended)**: `detect_inline_codeowners` reads at most the first 50
lines; a missing or unreadable file yields "no entry found"; an entry is only
emitted when at least one owner was parsed (a tags-only marker yields no
entry); and the entry returned is the one from the first line whose marker
parses to an entry — every earlier line yields none, so marker lines that
parse to no entry do not stop the scan. -/
theorem detect_inline_scan (path : Str) :
    (detect_inline_codeowners path none = none) ∧
    (∀ lines, detect_inline_codeowners path (some lines) =
      detect_inline_codeowners path (some (lines.take 50))) ∧
    (∀ line n e, parse_inline_codeowners_line line n path = some e →
      e.owners ≠ []) ∧
    (∀ lines e, detect_inline_codeowners path (some lines) = some e →
      e.owners ≠ [] ∧
      ∃ i, i < 50 ∧ ∃ l, lines[i]? = some l ∧
        parse_inline_codeowners_line l (i + 1) path = some e ∧
        ∀ j l2, j < i → lines[j]? = some l2 →
          parse_inline_codeowners_line l2 (j + 1) path = none) := by
  refine ⟨rfl, ?_, ?_, ?_⟩
  · intro lines
    show scanInlineLines path 0 (lines.take 50)
        = scanInlineLines path 0 ((lines.take 50).take 50)
    rw [List.take_take]
    norm_num
  · exact fun line n e h => parse_inline_owners_ne_nil line n path e h
  · intro lines e h
    have hscan : scanInlineLines path 0 (lines.take 50) = some e := h
    obtain ⟨i, l, hget, hparse, hprev⟩ :=
      scanInlineLines_some path (lines.take 50) 0 e hscan
    have hi : i < 50 := by
      have hlen := List.getElem?_eq_some_iff.mp hget
      obtain ⟨hlt, _⟩ := hlen
      calc i < (lines.take 50).length := hlt
        _ ≤ 50 := by simp
    refine ⟨parse_inline_owners_ne_nil l (0 + i + 1) path e hparse, i, hi, l, ?_, ?_, ?_⟩
    · rw [List.getElem?_take_of_lt hi] at hget
      exact hget
    · have heq : 0 + i + 1 = i + 1 := by omega
      rw [heq] at hparse
      exact hparse
    · intro j l2 hj hgetj
      have hj50 : j < 50 := by omega
      have hres := hprev j l2 hj (by rw [List.getElem?_take_of_lt hj50]; exact hgetj)
      have heq : 0 + j + 1 = j + 1 := by omega
      rw [heq] at hres
      exact hres

/-- Witness for C8 at a marker on line 2 with an owner and a tag. -/
theorem detect_inline_scan_witness :
    detect_inline_codeowners ("g.rs".toList)
        (some ["// top".toList, "// !!!CODEOWNERS @u1 #t1".toList]) =
      some { file_path := "g.rs".toList, line_number := 2
             owners := [{ identifier := "@u1".toList
                          owner_type := OwnerType.User }]
             tags := [{ name := "t1".toList }] } := by
  have h := (detect_inline_scan ("g.rs".toList)).2.1
    ["// top".toList, "// !!!CODEOWNERS @u1 #t1".toList]
  rw [h]
  decide

/-! ## C4 and C3: inference filtering, sorting and confidence -/

theorem mem_insertDesc (x : InferredOwner) (l : List InferredOwner)
    (a : InferredOwner) : a ∈ insertDesc x l ↔ a = x ∨ a ∈ l := by
  induction l with
  | nil => simp [insertDesc]
  | cons y ys ih =>
    rw [insertDesc]
    by_cases h : x.score ≤ y.score
    · rw [if_pos h]
      simp only [List.mem_cons, ih]
      tauto
    · rw [if_neg h]
      simp only [List.mem_cons]

theorem mem_sortByScoreDesc (l : List InferredOwner) (a : InferredOwner) :
    a ∈ sortByScoreDesc l ↔ a ∈ l := by
  induction l with
  | nil => simp [sortByScoreDesc]
  | cons x xs ih =>
    rw [show sortByScoreDesc (x :: xs) = insertDesc x (sortByScoreDesc xs) from rfl,
      mem_insertDesc, ih]
    simp

theorem sorted_insertDesc (x : InferredOwner) (l : List InferredOwner)
    (h : l.Pairwise (fun a b => b.score ≤ a.score)) :
    (insertDesc x l).Pairwise (fun a b => b.score ≤ a.score) := by
  induction l with
  | nil => simp [insertDesc]
  | cons y ys ih =>
    rw [insertDesc]
    rcases List.pairwise_cons.mp h with ⟨hy, hys⟩
    by_cases hle : x.score ≤ y.score
    · rw [if_pos hle]
      refine List.pairwise_cons.mpr ⟨?_, ih hys⟩
      intro z hz
      rcases (mem_insertDesc x ys z).mp hz with rfl | hz2
      · exact hle
      · exact hy z hz2
    · rw [if_neg hle]
      refine List.pairwise_cons.mpr ⟨?_, h⟩
      intro z hz
      rcases List.mem_cons.mp hz with rfl | hz2
      · exact le_of_lt (lt_of_not_le hle)
      · exact le_trans (hy z hz2) (le_of_lt (lt_of_not_le hle))

theorem sorted_sortByScoreDesc (l : List InferredOwner) :
    (sortByScoreDesc l).Pairwise (fun a b => b.score ≤ a.score) := by
  induction l with
  | nil => simp [sortByScoreDesc]
  | cons x xs ih =>
    exact sorted_insertDesc x (sortByScoreDesc xs) ih

/-- **C4**: a contributor appears in the output candidate list iff they were
aggregated from the blame, their commit count is at least `min_commits`, and
their raw score is at least `min_percentage`% of the summed score across all
contributors that survived the `min_commits` filter; and the output list is
sorted by score descending. -/
theorem infer_candidate_filter (blame : List Hunk)
    (min_commits min_percentage : Nat) :
    (∀ c, c ∈ (analyze_file_ownership_lines blame min_commits min_percentage).1 ↔
      (c ∈ blame.foldl updateContributor [] ∧ min_commits ≤ c.commits ∧
        ((min_percentage : ℚ) / 100) *
          (((blame.foldl updateContributor []).filter
              fun d => min_commits ≤ d.commits).map fun d => d.score).sum
          ≤ c.score)) ∧
    (analyze_file_ownership_lines blame min_commits min_percentage).1.Pairwise
      (fun a b => b.score ≤ a.score) := by
  constructor
  · intro c
    show c ∈ sortByScoreDesc ((analyze_by_lines blame min_commits).filter fun d =>
        ((min_percentage : ℚ) / 100) *
          (((analyze_by_lines blame min_commits).map fun d => d.score).sum) ≤ d.score) ↔ _
    rw [mem_sortByScoreDesc, List.mem_filter]
    show c ∈ (blame.foldl updateContributor []).filter
        (fun d => min_commits ≤ d.commits) ∧ _ ↔ _
    rw [List.mem_filter]
    simp only [decide_eq_true_eq, and_assoc, analyze_by_lines]
  · show (sortByScoreDesc _).Pairwise _
    exact sorted_sortByScoreDesc _

/-- Concrete check of the C4 filtering: with `min_commits = 1`,
`min_percentage = 50`, only the 10-line contributor survives. -/
theorem infer_candidate_filter_eval :
    ((analyze_file_ownership_lines
      [{ email := "a@x".toList, lines_in_hunk := 10, days_ago := 0 },
       { email := "b@x".toList, lines_in_hunk := 1, days_ago := 0 }] 1 50).1.map
        fun c => c.email) = ["a@x".toList] := by
  norm_num [analyze_file_ownership_lines, filterSortAndConfidence, analyze_by_lines,
    updateContributor, U32_MAX, List.filter, sortByScoreDesc, insertDesc]

/-- The concrete blame of the C3 counterexample: contributor a@x with 10
lines, contributor b@x with 1 line, one hunk (= one counted commit) each. -/
def cexBlame : List Hunk :=
  [{ email := "a@x".toList, lines_in_hunk := 10, days_ago := 0 },
   { email := "b@x".toList, lines_in_hunk := 1, days_ago := 0 }]

/-- **C3 counterexample**: with `min_commits = 1` and `min_percentage = 50`,
the only surviving candidate scores 10, so the claim's formula — whose
`total_score` is summed over the *surviving* candidates — yields
`(10/10) * (1 - 0.1 * 1) = 9/10`; the code computes `9/11` because its
`total_score` (= 11) also counts the contributor the percentage filter
dropped. -/
theorem infer_confidence_counterexample :
    ((analyze_file_ownership_lines cexBlame 1 50).1.map fun c => c.score)
        = [(10 : ℚ)] ∧
    (analyze_file_ownership_lines cexBlame 1 50).2 = 9 / 11 ∧
    ((10 : ℚ) / 10) * (1 - (min 1 5 : ℚ) * (1 / 10)) = 9 / 10 ∧
    (9 : ℚ) / 11 ≠ 9 / 10 := by
  refine ⟨?_, ?_, by norm_num, by norm_num⟩ <;>
    norm_num [analyze_file_ownership_lines, filterSortAndConfidence, analyze_by_lines,
      cexBlame, updateContributor, U32_MAX, List.filter, sortByScoreDesc, insertDesc]

/-- **C3 (amended)**: the confidence is 0 when no candidate survives both
filters; otherwise it is `(top_score / total_score) * (1 - 0.1 *
min(candidate_count, 5))` clamped to `[0, 1]`, where `top_score` is the
largest surviving score (the head of the sorted output) but `total_score` is
the summed score across all contributors surviving the `min_commits` filter
alone, computed before the `min_percentage` filter (with the ratio taken as 0
when that total is not positive). -/
theorem infer_confidence_formula (blame : List Hunk)
    (min_commits min_percentage : Nat) :
    ((analyze_file_ownership_lines blame min_commits min_percentage).1 = [] →
      (analyze_file_ownership_lines blame min_commits min_percentage).2 = 0) ∧
    (∀ top rest,
      (analyze_file_ownership_lines blame min_commits min_percentage).1
          = top :: rest →
      ((analyze_file_ownership_lines blame min_commits min_percentage).2 =
        min (max ((if 0 < ((analyze_by_lines blame min_commits).map
              fun c => c.score).sum then
            top.score / ((analyze_by_lines blame min_commits).map
              fun c => c.score).sum
          else 0) *
          (1 - ((min (top :: rest).length 5 : ℕ) : ℚ) * (1 / 10))) 0) 1) ∧
      ∀ c ∈ top :: rest, c.score ≤ top.score) := by
  have h2 : (analyze_file_ownership_lines blame min_commits min_percentage).2 =
      (match (analyze_file_ownership_lines blame min_commits min_percentage).1 with
       | [] => (0 : ℚ)
       | top :: _ =>
         min (max ((if 0 < ((analyze_by_lines blame min_commits).map
               fun c => c.score).sum then
             top.score / ((analyze_by_lines blame min_commits).map
               fun c => c.score).sum
           else 0) *
           (1 - ((min (analyze_file_ownership_lines blame
                min_commits min_percentage).1.length 5 : ℕ) : ℚ) * (1 / 10))) 0) 1) :=
    rfl
  constructor
  · intro h
    rw [h2, h]
  · intro top rest h
    refine ⟨?_, ?_⟩
    · rw [h2, h]
    · intro c hc
      have hs : (analyze_file_ownership_lines blame
          min_commits min_percentage).1.Pairwise (fun a b => b.score ≤ a.score) :=
        sorted_sortByScoreDesc _
      rw [h] at hs
      rcases List.mem_cons.mp hc with rfl | hc2
      · exact le_refl _
      · exact (List.pairwise_cons.mp hs).1 c hc2

/-- Witness for C3 at the counterexample blame: the amended formula evaluates
to the code's `9/11`. -/
theorem infer_confidence_formula_witness :
    (analyze_file_ownership_lines cexBlame 1 50).2 = 9 / 11 := by
  have h := ((infer_confidence_formula cexBlame 1 50).2
    { email := "a@x".toList, username := none, score := 10, commits := 1
      lines := 10, last_commit_days_ago := 0 } []
    (by norm_num [analyze_file_ownership_lines, filterSortAndConfidence,
      analyze_by_lines, cexBlame, updateContributor, U32_MAX, List.filter,
      sortByScoreDesc, insertDesc])).1
  rw [h]
  norm_num [analyze_by_lines, cexBlame, updateContributor, U32_MAX, List.filter]

end CodeInput
